import Mathlib

/-!
Verification development for the OPIC-HITS crawl-frontier backend
(`crawlfrontier/contrib/backends/opic`).  The Python modules
`opichits.py`, `hitsdb.py` and `freqdb.py` are shallowly embedded below:
page identifiers become naturals (their order standing in for the
byte-string order of the originals), IEEE doubles become exact rationals,
and each SQLite table becomes a list of rows in insertion (rowid) order.
-/

namespace Frontera

/-- Six-field hub/authority score record (`hitsdb.HitsScore`). -/
structure HitsScore where
  h_history : ℚ
  h_cash : ℚ
  h_last : ℚ
  a_history : ℚ
  a_cash : ℚ
  a_last : ℚ
deriving DecidableEq, Repr

abbrev PageId := Nat

/-- A score table in rowid (insertion) order; page ids are unique. -/
abbrev ScoreRows := List (PageId × HitsScore)

namespace Rows

/-- The page ids of a table, in rowid order. -/
def keys (rows : ScoreRows) : List PageId := rows.map Prod.fst

/-- Point lookup (`SELECT ... WHERE page_id=?`). -/
def get? : ScoreRows → PageId → Option HitsScore
  | [], _ => none
  | r :: rs, p => if r.1 = p then some r.2 else get? rs p

/-- `UPDATE ... WHERE page_id=?`: replace the score stored for `p`. -/
def setRow (rows : ScoreRows) (p : PageId) (s : HitsScore) : ScoreRows :=
  rows.map fun r => if r.1 = p then (r.1, s) else r

/-- `UPDATE ... SET a_cash=a_cash+δ WHERE page_id IN ids`
(each matching row is updated once). -/
def incA (rows : ScoreRows) (ids : List PageId) (d : ℚ) : ScoreRows :=
  rows.map fun r =>
    if r.1 ∈ ids then (r.1, { r.2 with a_cash := r.2.a_cash + d }) else r

/-- `UPDATE ... SET h_cash=h_cash+δ WHERE page_id IN ids`. -/
def incH (rows : ScoreRows) (ids : List PageId) (d : ℚ) : ScoreRows :=
  rows.map fun r =>
    if r.1 ∈ ids then (r.1, { r.2 with h_cash := r.2.h_cash + d }) else r

/-- Add `dh` to every row's hub cash and `da` to every row's authority
cash (the naive view of `increase_all_cash`). -/
def incAll (rows : ScoreRows) (dh da : ℚ) : ScoreRows :=
  rows.map fun r =>
    (r.1, { r.2 with h_cash := r.2.h_cash + dh, a_cash := r.2.a_cash + da })

/-- Total unspent cash held by the rows. -/
def sumCash (rows : ScoreRows) : ℚ :=
  (rows.map fun r => r.2.h_cash + r.2.a_cash).sum

/-- `get_h_total`: sum of the stored hub histories. -/
def sumH (rows : ScoreRows) : ℚ := (rows.map fun r => r.2.h_history).sum

/-- `get_a_total`: sum of the stored authority histories. -/
def sumA (rows : ScoreRows) : ℚ := (rows.map fun r => r.2.a_history).sum

end Rows

/-- Modelled from the spec: `graphdb` is not under `src/`.  Per the spec
the graph store is a directed graph kept as an adjacency table keyed by
edge endpoints, offering successor and predecessor enumeration and the
node list; self-loops are ignored, and enumerations are duplicate-free
(one row per edge-endpoint pair). -/
structure GraphDB where
  succs : PageId → List PageId
  preds : PageId → List PageId
  inodes : List PageId

/-- In-memory state of an `OpicHits` engine (fields of the Python object:
score table, page counter, accumulated totals, virtual clock, virtual
page and the must-update list). -/
structure OpicState where
  scores : ScoreRows
  nPages : Nat
  hTotal : ℚ
  aTotal : ℚ
  time : ℚ
  vp : HitsScore
  toUpdate : List PageId
deriving DecidableEq, Repr

namespace OpicHits

/-- The score given to a newly added page. -/
def freshScore (t : ℚ) : HitsScore :=
  ⟨0, 1, t, 0, 1, t⟩

/-- `add_page`: insert a fresh score row if the page is unknown. -/
def addPage (st : OpicState) (p : PageId) : OpicState :=
  if p ∈ Rows.keys st.scores then st
  else { st with
           nPages := st.nPages + 1
           scores := st.scores ++ [(p, freshScore st.time)] }

/-- `mark_update`: append to the must-update list. -/
def markUpdate (st : OpicState) (p : PageId) : OpicState :=
  { st with toUpdate := st.toUpdate ++ [p] }

/-- `_get_page_score`: read a page's score, creating the page if absent. -/
def getPageScore (st : OpicState) (p : PageId) : HitsScore × OpicState :=
  match Rows.get? st.scores p with
  | some s => (s, st)
  | none => (freshScore st.time, addPage st p)

/-- `_history_interpolator`. -/
def histRoll (w : ℚ) (now last hist cash : ℚ) : ℚ :=
  let f := (now - last) / w
  if f < 1 then hist * (1 - f) + cash else cash / f

/-- Cash rolled into hub history; `tw = none` (or a zero window, which
Python treats as falsy) means plain accumulation. -/
def rollH (tw : Option ℚ) (now : ℚ) (s : HitsScore) : ℚ :=
  match tw with
  | none => s.h_history + s.h_cash
  | some w =>
    if w = 0 then s.h_history + s.h_cash
    else histRoll w now s.h_last s.h_history s.h_cash

/-- Cash rolled into authority history. -/
def rollA (tw : Option ℚ) (now : ℚ) (s : HitsScore) : ℚ :=
  match tw with
  | none => s.a_history + s.a_cash
  | some w =>
    if w = 0 then s.a_history + s.a_cash
    else histRoll w now s.a_last s.a_history s.a_cash

/-- `_updated_page_h`: move hub cash into hub history. -/
def updatedPageH (tw : Option ℚ) (now : ℚ) (s : HitsScore) : HitsScore :=
  { s with h_history := rollH tw now s, h_cash := 0, h_last := now }

/-- `_updated_page_a`: move authority cash into authority history. -/
def updatedPageA (tw : Option ℚ) (now : ℚ) (s : HitsScore) : HitsScore :=
  { s with a_history := rollA tw now s, a_cash := 0, a_last := now }

/-- The per-predecessor share of authority cash flowing back to hubs,
exactly as computed in `_update_page_a`. -/
def zShare (r : ℚ) (n : Nat) : ℚ :=
  if 0 < n then 2 * r / (n : ℚ) * (2 * (n : ℚ) / ((n : ℚ) + 1) * (1 - r) + (r - 1 / 2))
  else 0

/-- Relevance lookup `self._relevance.get(page_id) or 0.5`; Python's
`or` also replaces a stored `0.0` by the default `0.5`. -/
def relOf (rel : PageId → Option ℚ) (p : PageId) : ℚ :=
  match rel p with
  | some v => if v = 0 then 1 / 2 else v
  | none => 1 / 2

/-- `_update_page_h`. -/
def updatePageH (g : GraphDB) (tw : Option ℚ) (st : OpicState) (p : PageId) :
    OpicState :=
  let sc := getPageScore st p
  let score := sc.1
  let st1 := sc.2
  let succ := g.succs p
  let aDist := score.h_cash / ((succ.length : ℚ) + 1)
  let st2 := { st1 with
                 scores := Rows.incA st1.scores succ aDist
                 vp := { st1.vp with a_cash := st1.vp.a_cash + aDist } }
  let newScore := updatedPageH tw st2.time score
  { st2 with
      scores := Rows.setRow st2.scores p newScore
      hTotal := st2.hTotal + (newScore.h_history - score.h_history)
      time := st2.time + score.h_cash }

/-- `_update_page_a`. -/
def updatePageA (g : GraphDB) (rel : PageId → Option ℚ) (tw : Option ℚ)
    (st : OpicState) (p : PageId) : OpicState :=
  let sc := getPageScore st p
  let score := sc.1
  let st1 := sc.2
  let pred := g.preds p
  let z := zShare (relOf rel p) pred.length
  let st2 := { st1 with
                 scores := Rows.incH st1.scores pred (score.a_cash * z)
                 vp := { st1.vp with
                           h_cash := st1.vp.h_cash +
                             score.a_cash * (1 - z * (pred.length : ℚ)) } }
  let newScore := updatedPageA tw st2.time score
  { st2 with
      scores := Rows.setRow st2.scores p newScore
      aTotal := st2.aTotal + (newScore.a_history - score.a_history)
      time := st2.time + score.a_cash }

/-- `_update_virtual_page`. -/
def updateVirtualPage (tw : Option ℚ) (st : OpicState) : OpicState :=
  if 0 < st.nPages then
    let hDist := st.vp.a_cash / (st.nPages : ℚ)
    let aDist := st.vp.h_cash / (st.nPages : ℚ)
    { st with
        scores := Rows.incAll st.scores hDist aDist
        vp := updatedPageH tw st.time (updatedPageA tw st.time st.vp) }
  else st

/-- Ordering used for `ORDER BY h_cash DESC`: larger cash first, ties in
rowid order. -/
def hubTopRel (a b : Nat × PageId × HitsScore) : Prop :=
  b.2.2.h_cash < a.2.2.h_cash ∨ (b.2.2.h_cash = a.2.2.h_cash ∧ a.1 ≤ b.1)

instance : DecidableRel hubTopRel := fun a b =>
  inferInstanceAs (Decidable (_ ∨ _ ∧ _))

/-- Ordering used for `ORDER BY a_cash DESC`. -/
def authTopRel (a b : Nat × PageId × HitsScore) : Prop :=
  b.2.2.a_cash < a.2.2.a_cash ∨ (b.2.2.a_cash = a.2.2.a_cash ∧ a.1 ≤ b.1)

instance : DecidableRel authTopRel := fun a b =>
  inferInstanceAs (Decidable (_ ∨ _ ∧ _))

/-- `get_highest_h_cash`. -/
def getHighestH (st : OpicState) (n : Nat) : List (PageId × ℚ) :=
  ((st.scores.enum.insertionSort hubTopRel).take n).map fun e =>
    (e.2.1, e.2.2.h_cash)

/-- `get_highest_a_cash`. -/
def getHighestA (st : OpicState) (n : Nat) : List (PageId × ℚ) :=
  ((st.scores.enum.insertionSort authTopRel).take n).map fun e =>
    (e.2.1, e.2.2.a_cash)

/-- Descending Python-tuple order on `(cash, page_id, is_hub)` entries,
with `False < True`, as in `sorted(..., reverse=True)`. -/
def entryGE (a b : ℚ × PageId × Bool) : Prop :=
  b.1 < a.1 ∨ (a.1 = b.1 ∧
    (b.2.1 < a.2.1 ∨ (a.2.1 = b.2.1 ∧ (b.2.2 = true → a.2.2 = true))))

instance : DecidableRel entryGE := fun a b =>
  inferInstanceAs (Decidable (_ ∨ _ ∧ (_ ∨ _ ∧ _)))

/-- One iteration's batch: top cash entries of both kinds, merged,
sorted by descending cash and truncated to `nUpd`. -/
def selectMixed (st : OpicState) (nUpd : Nat) : List (ℚ × PageId × Bool) :=
  let hh := (getHighestH st nUpd).map fun pc => (pc.2, pc.1, true)
  let aa := (getHighestA st nUpd).map fun pc => (pc.2, pc.1, false)
  ((hh ++ aa).insertionSort entryGE).take nUpd

/-- Dispatch one batch entry to the hub or the authority update. -/
def applyEntry (g : GraphDB) (rel : PageId → Option ℚ) (tw : Option ℚ)
    (st : OpicState) (e : ℚ × PageId × Bool) : OpicState :=
  if e.2.2 then updatePageH g tw st e.2.1 else updatePageA g rel tw st e.2.1

/-- Process a batch in order. -/
def runMixed (g : GraphDB) (rel : PageId → Option ℚ) (tw : Option ℚ)
    (st : OpicState) (mixed : List (ℚ × PageId × Bool)) : OpicState :=
  mixed.foldl (applyEntry g rel tw) st

/-- One full iteration of the `update` loop body. -/
def iterOnce (g : GraphDB) (rel : PageId → Option ℚ) (tw : Option ℚ)
    (nUpd : Nat) (st : OpicState) : OpicState :=
  updateVirtualPage tw (runMixed g rel tw st (selectMixed st nUpd))

/-- The `for i in xrange(n_iter)` loop of `update`, returning the batch
of the final iteration together with the final state. -/
def updateLoop (g : GraphDB) (rel : PageId → Option ℚ) (tw : Option ℚ)
    (nUpd : Nat) : Nat → OpicState → List (ℚ × PageId × Bool) × OpicState
  | 0, st => ([], st)
  | 1, st =>
    let mixed := selectMixed st nUpd
    (mixed, updateVirtualPage tw (runMixed g rel tw st mixed))
  | Nat.succ (Nat.succ k), st =>
    let mixed := selectMixed st nUpd
    updateLoop g rel tw nUpd (Nat.succ k)
      (updateVirtualPage tw (runMixed g rel tw st mixed))

/-- `update(n_iter)`: run the loop, clear the must-update list, project
the last batch into the returned (hub pages, authority pages) pair.  For
`n_iter = 0` the Python code would fault on an undefined `mixed`; the
embedding returns empty lists there, and every claim takes `n_iter ≥ 1`. -/
def update (g : GraphDB) (rel : PageId → Option ℚ) (tw : Option ℚ)
    (nIter : Nat) (st : OpicState) : (List PageId × List PageId) × OpicState :=
  let nUpd := 20 * max 1 st.toUpdate.length
  let r := updateLoop g rel tw nUpd nIter st
  (((r.1.filter fun e => e.2.2).map fun e => e.2.1,
    (r.1.filter fun e => !e.2.2).map fun e => e.2.1),
   { r.2 with toUpdate := [] })

/-- `_relative_score`. -/
def relativeScore (st : OpicState) (s : HitsScore) : ℚ × ℚ :=
  (if 0 < st.hTotal then s.h_history / st.hTotal else 0,
   if 0 < st.aTotal then s.a_history / st.aTotal else 0)

/-- `get_scores` (it may create the page, like the source). -/
def getScores (st : OpicState) (p : PageId) : (ℚ × ℚ) × OpicState :=
  let sc := getPageScore st p
  (relativeScore sc.2 sc.1, sc.2)

/-- `OpicHits.__init__` over existing stores: counters and totals are
read from the score table, the virtual clock restarts at `0`, the
virtual page is rebuilt with unit cash, and every graph node receives a
score row. -/
def initState (g : GraphDB) (rows : ScoreRows) : OpicState :=
  let base : OpicState :=
    { scores := rows
      nPages := rows.length
      hTotal := Rows.sumH rows
      aTotal := Rows.sumA rows
      time := 0
      vp := ⟨0, 1, 0, 0, 1, 0⟩
      toUpdate := [] }
  g.inodes.foldl addPage base

/-- Total unspent cash of an engine state: both virtual-page channels
plus all real rows. -/
def totalCash (st : OpicState) : ℚ :=
  st.vp.h_cash + st.vp.a_cash + Rows.sumCash st.scores

/-- Convenience read of a page's stored record (zero record if absent). -/
def rowOf (st : OpicState) (p : PageId) : HitsScore :=
  (Rows.get? st.scores p).getD ⟨0, 0, 0, 0, 0, 0⟩

end OpicHits

/-! ## The SQLite score store with the cash-delta trick (`hitsdb.SQLite`) -/

namespace HitsDB

/-- `hitsdb.SQLite` state: the stored rows plus the two scalar deltas
`_h_cash_increase` / `_a_cash_increase` kept in the `global_increase`
table. -/
structure DB where
  rows : ScoreRows
  hInc : ℚ
  aInc : ℚ
deriving DecidableEq, Repr

/-- A freshly created (or reopened-on-empty) store. -/
def empty : DB := ⟨[], 0, 0⟩

/-- `add`: `INSERT OR IGNORE`, storing cash minus the current deltas. -/
def add (db : DB) (p : PageId) (s : HitsScore) : DB :=
  if p ∈ Rows.keys db.rows then db
  else { db with rows := db.rows ++
          [(p, { s with h_cash := s.h_cash - db.hInc, a_cash := s.a_cash - db.aInc })] }

/-- `get`: point lookup, adding each delta to its own cash channel. -/
def get (db : DB) (p : PageId) : Option HitsScore :=
  (Rows.get? db.rows p).map fun s =>
    { s with h_cash := s.h_cash + db.hInc, a_cash := s.a_cash + db.aInc }

/-- `set`: `UPDATE OR IGNORE`, storing cash minus the current deltas. -/
def set (db : DB) (p : PageId) (s : HitsScore) : DB :=
  let stored : HitsScore :=
    { s with h_cash := s.h_cash - db.hInc, a_cash := s.a_cash - db.aInc }
  { db with rows := Rows.setRow db.rows p stored }

/-- `increase_h_cash`: direct update of the listed stored rows. -/
def increase_h_cash (db : DB) (ids : List PageId) (d : ℚ) : DB :=
  { db with rows := Rows.incH db.rows ids d }

/-- `increase_a_cash`. -/
def increase_a_cash (db : DB) (ids : List PageId) (d : ℚ) : DB :=
  { db with rows := Rows.incA db.rows ids d }

/-- `increase_all_cash`: only the two deltas move. -/
def increase_all_cash (db : DB) (dh da : ℚ) : DB :=
  { db with hInc := db.hInc + dh, aInc := db.aInc + da }

/-- `iteritems`, faithful to the source: the hub slot receives
`_h_cash_increase`, and the authority slot receives `_h_cash_increase`
as well (source line `x[5] + self._h_cash_increase`). -/
def iteritems (db : DB) : ScoreRows :=
  db.rows.map fun r =>
    (r.1, { r.2 with h_cash := r.2.h_cash + db.hInc, a_cash := r.2.a_cash + db.hInc })

/-- `close` commits the deltas; the persisted content is the state
itself (there is no row for the engine's virtual clock). -/
def close (db : DB) : DB := db

end HitsDB

/-!
Modelled from the spec: the naive O(N) reference store against which
the cash-delta trick is compared — its `increase_all_cash` touches every
row, and its reads and writes are unadjusted.
-/

namespace NaiveHits

/-- Naive `add`: insert-if-absent, no delta adjustment. -/
def add (rows : ScoreRows) (p : PageId) (s : HitsScore) : ScoreRows :=
  if p ∈ Rows.keys rows then rows else rows ++ [(p, s)]

/-- Naive `increase_all_cash`: add to every row, channel by channel. -/
def increaseAll (rows : ScoreRows) (dh da : ℚ) : ScoreRows :=
  Rows.incAll rows dh da

/-- Naive `iteritems`: the rows as stored. -/
def iteritems (rows : ScoreRows) : ScoreRows := rows

end NaiveHits

/-! ## The refresh scheduler store (`freqdb.SQLite`) -/

/-- A row of the `page_frequency` table: `(page_id, frequency, score)`. -/
abbrev FreqRow := PageId × ℚ × ℚ

/-- The table in rowid (insertion) order. -/
abbrev FreqRows := List FreqRow

namespace FreqDB

/-- The page ids of the table, in rowid order. -/
def keys (rows : FreqRows) : List PageId := rows.map Prod.fst

/-- Point lookup of `(frequency, score)`. -/
def get? : FreqRows → PageId → Option (ℚ × ℚ)
  | [], _ => none
  | r :: rs, p => if r.1 = p then some r.2 else get? rs p

/-- rowid position of a page (length of the table if absent). -/
def posOf : FreqRows → PageId → Nat
  | [], _ => 0
  | r :: rs, p => if r.1 = p then 0 else posOf rs p + 1

/-- Rows tagged with their rowid. -/
def rowids : Nat → FreqRows → List (Nat × FreqRow)
  | _, [] => []
  | i, r :: rs => (i, r) :: rowids (i + 1) rs

/-- `ORDER BY score ASC` over the score index: ascending score, ties in
rowid order. -/
def scoreLE (a b : Nat × FreqRow) : Prop :=
  a.2.2.2 < b.2.2.2 ∨ (a.2.2.2 = b.2.2.2 ∧ a.1 ≤ b.1)

instance : DecidableRel scoreLE := fun a b =>
  inferInstanceAs (Decidable (_ ∨ _ ∧ _))

instance : IsTotal (Nat × FreqRow) scoreLE := by
  constructor
  intro a b
  rcases lt_trichotomy a.2.2.2 b.2.2.2 with h | h | h
  · exact Or.inl (Or.inl h)
  · rcases Nat.le_total a.1 b.1 with h' | h'
    · exact Or.inl (Or.inr ⟨h, h'⟩)
    · exact Or.inr (Or.inr ⟨h.symm, h'⟩)
  · exact Or.inr (Or.inl h)

instance : IsTrans (Nat × FreqRow) scoreLE := by
  constructor
  rintro a b c (hab | ⟨hab, hab'⟩) (hbc | ⟨hbc, hbc'⟩)
  · exact Or.inl (hab.trans hbc)
  · exact Or.inl (hbc ▸ hab)
  · exact Or.inl (hab ▸ hbc)
  · exact Or.inr ⟨hab.trans hbc, hab'.trans hbc'⟩

/-- The table scanned in index order. -/
def sortedRows (rows : FreqRows) : List (Nat × FreqRow) :=
  (rowids 0 rows).insertionSort scoreLE

/-- `_get_min_score`: `ORDER BY score ASC LIMIT 1`, or `0.0` on an empty
table. -/
def minScore (rows : FreqRows) : ℚ :=
  match sortedRows rows with
  | [] => 0
  | r :: _ => r.2.2.2

/-- `add(page_id, page_frequency, fresh=True)`: no-op unless the
frequency is positive; `INSERT OR IGNORE` of the admission score. -/
def add (rows : FreqRows) (p : PageId) (f : ℚ) (fresh : Bool) : FreqRows :=
  if 0 < f then
    let score := minScore rows + (if fresh then 1 / f else 0)
    if p ∈ keys rows then rows else rows ++ [(p, f, score)]
  else rows

/-- `delete`. -/
def delete (rows : FreqRows) (p : PageId) : FreqRows :=
  rows.filter fun r => !(r.1 == p)

/-- `set`: zero frequency deletes; a present row gets
`score - 1/f_old + 1/f_new` (SQL reads the old `frequency` column);
an absent page falls back to `add` with the default `fresh=True`. -/
def set (rows : FreqRows) (p : PageId) (f : ℚ) : FreqRows :=
  if f = 0 then delete rows p
  else if p ∈ keys rows then
    rows.map fun r => if r.1 = p then (r.1, f, r.2.2 - 1 / r.2.1 + 1 / f) else r
  else add rows p f true

/-- `get_next_pages(n)`: the ids of the first `n` rows in index order,
then `score += 1/frequency` on exactly those rows. -/
def getNextPages (rows : FreqRows) (n : Nat) : List PageId × FreqRows :=
  let ids := ((sortedRows rows).take n).map fun e => e.2.1
  (ids, rows.map fun r => if r.1 ∈ ids then (r.1, r.2.1, r.2.2 + 1 / r.2.1) else r)

/-- The score currently stored for a page (`0` if absent). -/
def scoreOf (rows : FreqRows) (p : PageId) : ℚ :=
  ((get? rows p).getD (0, 0)).2

end FreqDB

/-! ## Concrete scenarios used by individual claims -/

/-- Two pages with an edge `0 → 1` and an edge `1 → 0`. -/
def c1g : GraphDB :=
  { succs := fun p => if p = 0 then [1] else []
    preds := fun p => if p = 0 then [1] else []
    inodes := [0, 1] }

/-- An engine state over two live pages. -/
def c1st : OpicState :=
  { scores := [(0, ⟨0, 1, 0, 0, 1, 0⟩), (1, ⟨0, 1, 0, 0, 1, 0⟩)]
    nPages := 2
    hTotal := 0
    aTotal := 0
    time := 0
    vp := ⟨0, 1, 0, 0, 1, 0⟩
    toUpdate := [] }

/-- A delta store holding one page, after `increase_all_cash(1, 2)`. -/
def c2db : HitsDB.DB :=
  HitsDB.increase_all_cash (HitsDB.add HitsDB.empty 0 ⟨0, 0, 0, 0, 0, 0⟩) 1 2

/-- The naive reference store after the same two calls. -/
def c2naive : ScoreRows :=
  NaiveHits.increaseAll (NaiveHits.add [] 0 ⟨0, 0, 0, 0, 0, 0⟩) 1 2

/-- Twenty-one isolated pages (no edges). -/
def c3g : GraphDB :=
  { succs := fun _ => [], preds := fun _ => [], inodes := List.range 21 }

/-- Twenty pages with unit cash and one drained page `20`. -/
def c3rows : ScoreRows :=
  (List.range 20).map (fun i => (i, ⟨0, 1, 0, 0, 1, 0⟩)) ++ [(20, ⟨0, 0, 0, 0, 0, 0⟩)]

/-- The engine over `c3rows` right after `mark_update(20)`. -/
def c3st0 : OpicState := OpicHits.markUpdate (OpicHits.initState c3g c3rows) 20

/-- The result of the next `update(1)` call. -/
def c3res : (List PageId × List PageId) × OpicState :=
  OpicHits.update c3g (fun _ => none) none 1 c3st0

/-- A single isolated page. -/
def c4g : GraphDB := { succs := fun _ => [], preds := fun _ => [], inodes := [0] }

/-- A fresh engine over `c4g` after one `update(1)` call. -/
def c4run : (List PageId × List PageId) × OpicState :=
  OpicHits.update c4g (fun _ => none) none 1 (OpicHits.initState c4g [])

/-- Four hub pages `1..4`, each linking to page `0`; page `5` isolated. -/
def c8g : GraphDB :=
  { succs := fun p => if p ∈ [1, 2, 3, 4] then [0] else []
    preds := fun p => if p = 0 then [1, 2, 3, 4] else []
    inodes := [0, 1, 2, 3, 4, 5] }

/-- Page `0` is highly relevant (`r = 11/12 ∈ [0,1]`). -/
def c8rel : PageId → Option ℚ := fun p => if p = 0 then some (11 / 12) else none

/-- A restartable scores table: page `0` holds accumulated authority
cash, the other pages have just been drained. -/
def c8rows : ScoreRows :=
  (0, ⟨0, 1, 0, 0, 240, 0⟩) :: [1, 2, 3, 4, 5].map fun i => (i, ⟨0, 1, 0, 0, 0, 0⟩)

/-- The engine opened over those stores. -/
def c8st0 : OpicState := OpicHits.initState c8g c8rows

/-- After `update(1)`. -/
def c8st1 : OpicState := (OpicHits.update c8g c8rel none 1 c8st0).2

/-- After a further `update(1)`. -/
def c8st2 : OpicState := (OpicHits.update c8g c8rel none 1 c8st1).2

/-- A single-node graph for the `update` return-value witness. -/
def c9g : GraphDB := { succs := fun _ => [], preds := fun _ => [], inodes := [0] }

/-- A fresh engine over `c9g`. -/
def c9st : OpicState := OpicHits.initState c9g []

/-! ## Helper lemmas -/

/-- `add_page` never touches the virtual clock. -/
theorem addPage_time (st : OpicState) (p : PageId) :
    (OpicHits.addPage st p).time = st.time := by
  unfold OpicHits.addPage
  split <;> rfl

/-- Neither does the initialisation loop over the graph nodes. -/
theorem foldl_addPage_time (l : List PageId) :
    ∀ st : OpicState, (l.foldl OpicHits.addPage st).time = st.time := by
  induction l with
  | nil => intro st; rfl
  | cons p l ih => intro st; rw [List.foldl_cons, ih, addPage_time]

/-! ## Claims -/

/-- Claim C7: for every predecessor count `N > 0` and relevance `r`, the
per-predecessor share `z = (2r/N)·((2N/(N+1))·(1−r) + (r−0.5))` computed
by the authority update satisfies `z(0) = 0`, `z(1) = 1/N` and
`z(0.5) = 1/(N+1)`; for `N = 0`, `z = 0`. -/
theorem opic_z_share_anchor_points (N : Nat) (hN : 0 < N) (r : ℚ)
    (hr0 : 0 ≤ r) (hr1 : r ≤ 1) :
    OpicHits.zShare 0 N = 0 ∧
    OpicHits.zShare 1 N = 1 / (N : ℚ) ∧
    OpicHits.zShare (1 / 2) N = 1 / ((N : ℚ) + 1) ∧
    OpicHits.zShare r 0 = 0 := by
  have hQ : ((N : ℚ)) ≠ 0 := Nat.cast_ne_zero.mpr hN.ne'
  have hQ1 : ((N : ℚ)) + 1 ≠ 0 := by positivity
  refine ⟨?_, ?_, ?_, ?_⟩
  · simp [OpicHits.zShare, hN]
  · rw [OpicHits.zShare, if_pos hN]
    field_simp
    ring
  · rw [OpicHits.zShare, if_pos hN]
    field_simp
    ring
  · simp [OpicHits.zShare]

/-- Witness for C7 at `N = 3`, `r = 5/7`. -/
theorem opic_z_share_anchor_points_witness :
    (0 < 3 ∧ (0 : ℚ) ≤ 5 / 7 ∧ (5 / 7 : ℚ) ≤ 1) ∧
    (OpicHits.zShare 0 3 = 0 ∧
     OpicHits.zShare 1 3 = 1 / ((3 : Nat) : ℚ) ∧
     OpicHits.zShare (1 / 2) 3 = 1 / (((3 : Nat) : ℚ) + 1) ∧
     OpicHits.zShare (5 / 7) 0 = 0) :=
  ⟨⟨by decide, by norm_num, by norm_num⟩,
   opic_z_share_anchor_points 3 (by decide) (5 / 7) (by norm_num) (by norm_num)⟩

/-- Claim C2 (code bug): after `add(0, zeros)` and
`increase_all_cash(1, 2)`, `iteritems` reports `a_cash = 1` — it adds the
hub delta to the authority channel — while the naive reference store
reports `a_cash = 2`; `get` on the same store agrees with the reference. -/
theorem hitsdb_iteritems_mixes_deltas :
    (HitsDB.iteritems c2db).map (fun r => r.2.a_cash) = [1] ∧
    (NaiveHits.iteritems c2naive).map (fun r => r.2.a_cash) = [2] ∧
    HitsDB.get c2db 0 = Rows.get? c2naive 0 :=
  of_decide_eq_true (by with_unfolding_all rfl)

/-- Claim C3 (code bug): over `c3rows` (twenty unit-cash pages and the
drained page `20`), `mark_update(20)` followed by `update(1)` never
updates page `20`: it is absent from both returned lists, its history
and timestamps stay `0` while the clock advances to `20`, and the
must-update list is cleared — the marked page only inflated the batch
size. -/
theorem opic_marked_page_not_updated :
    (20 ∉ c3res.1.1 ∧ 20 ∉ c3res.1.2) ∧
    c3res.2.toUpdate = [] ∧
    (OpicHits.rowOf c3res.2 20).h_history = 0 ∧
    (OpicHits.rowOf c3res.2 20).a_history = 0 ∧
    (OpicHits.rowOf c3res.2 20).h_last = 0 ∧
    (OpicHits.rowOf c3res.2 20).a_last = 0 ∧
    c3res.2.time = 20 :=
  of_decide_eq_true (by with_unfolding_all rfl)

/-- Claim C4 (code bug): the virtual clock of the engine constructed in
`c4run` reaches `2` after one update round, but `OpicHits.__init__`
starts every engine — whatever the persisted stores contain — with
`virtual_time = 0`: the clock is never persisted or restored. -/
theorem opic_virtual_time_not_restored :
    c4run.2.time = 2 ∧
    ∀ (g : GraphDB) (rows : ScoreRows), (OpicHits.initState g rows).time = 0 := by
  constructor
  · exact of_decide_eq_true (by with_unfolding_all rfl)
  · intro g rows
    unfold OpicHits.initState
    rw [foldl_addPage_time]

/-- Claim C8 (code bug): with no time window, relevances inside `[0,1]`
and nonnegative starting scores, the unclamped share `1 − z·N < 0` lets
the virtual page accumulate negative hub cash, so `a_history` of page
`5` drops from `0` after one update round to `−1/6` after the next. -/
theorem opic_a_history_decreases :
    (OpicHits.rowOf c8st2 5).a_history < (OpicHits.rowOf c8st1 5).a_history ∧
    (OpicHits.rowOf c8st1 5).a_history = 0 ∧
    (OpicHits.rowOf c8st2 5).a_history = -(1 / 6) :=
  of_decide_eq_true (by with_unfolding_all rfl)

namespace FreqDB

/-- Tagging rows with rowids keeps the row list itself. -/
theorem rowids_map_snd : ∀ (i : Nat) (rows : FreqRows),
    (rowids i rows).map Prod.snd = rows
  | _, [] => rfl
  | i, _ :: rs => by simp [rowids, rowids_map_snd (i + 1) rs]

/-- Tagging preserves the length. -/
theorem rowids_length : ∀ (i : Nat) (rows : FreqRows),
    (rowids i rows).length = rows.length
  | _, [] => rfl
  | i, _ :: rs => by simp [rowids, rowids_length (i + 1) rs]

/-- All rowids issued from `i` on are at least `i`. -/
theorem rowids_le_fst : ∀ (i : Nat) (rows : FreqRows) (x : Nat × FreqRow),
    x ∈ rowids i rows → i ≤ x.1
  | _, [], _, hx => absurd hx (List.not_mem_nil _)
  | i, r :: rs, x, hx => by
    rcases List.mem_cons.mp hx with h | h
    · exact h ▸ Nat.le_refl i
    · exact Nat.le_of_succ_le (rowids_le_fst (i + 1) rs x h)

/-- rowids are pairwise distinct, so the tagged list has no duplicates. -/
theorem rowids_nodup : ∀ (i : Nat) (rows : FreqRows), (rowids i rows).Nodup
  | _, [] => List.nodup_nil
  | i, r :: rs => by
    refine List.nodup_cons.mpr ⟨fun hmem => ?_, rowids_nodup (i + 1) rs⟩
    have := rowids_le_fst (i + 1) rs (i, r) hmem
    omega

/-- A rowid determines the tagged element. -/
theorem rowids_fst_inj : ∀ (i : Nat) (rows : FreqRows) (x y : Nat × FreqRow),
    x ∈ rowids i rows → y ∈ rowids i rows → x.1 = y.1 → x = y
  | _, [], x, _, hx, _, _ => absurd hx (List.not_mem_nil _)
  | i, r :: rs, x, y, hx, hy, hxy => by
    rcases List.mem_cons.mp hx with h1 | h1 <;> rcases List.mem_cons.mp hy with h2 | h2
    · exact h1.trans h2.symm
    · exact absurd (hxy ▸ rowids_le_fst (i + 1) rs y h2) (by simp [h1])
    · exact absurd (hxy ▸ rowids_le_fst (i + 1) rs x h1) (by simp [h2])
    · exact rowids_fst_inj (i + 1) rs x y h1 h2 hxy

/-- With unique page ids, a tagged row is what `get?` returns. -/
theorem rowids_get? : ∀ (i : Nat) (rows : FreqRows) (x : Nat × FreqRow),
    (keys rows).Nodup → x ∈ rowids i rows → get? rows x.2.1 = some x.2.2
  | _, [], x, _, hx => absurd hx (List.not_mem_nil _)
  | i, r :: rs, x, hnd, hx => by
    have hnd' := List.nodup_cons.mp hnd
    rcases List.mem_cons.mp hx with h | h
    · subst h
      simp [get?]
    · have hmem : x.2 ∈ rs := by
        have := List.mem_map_of_mem Prod.snd h
        rwa [rowids_map_snd] at this
      have hne : r.1 ≠ x.2.1 := by
        intro he
        exact hnd'.1 (he ▸ List.mem_map_of_mem Prod.fst hmem)
      rw [get?, if_neg hne]
      exact rowids_get? (i + 1) rs x hnd'.2 h

/-- With unique page ids, a tagged row sits at its rowid position. -/
theorem rowids_posOf : ∀ (i : Nat) (rows : FreqRows) (x : Nat × FreqRow),
    (keys rows).Nodup → x ∈ rowids i rows → posOf rows x.2.1 + i = x.1
  | _, [], x, _, hx => absurd hx (List.not_mem_nil _)
  | i, r :: rs, x, hnd, hx => by
    have hnd' := List.nodup_cons.mp hnd
    rcases List.mem_cons.mp hx with h | h
    · subst h
      simp [posOf]
    · have hmem : x.2 ∈ rs := by
        have := List.mem_map_of_mem Prod.snd h
        rwa [rowids_map_snd] at this
      have hne : r.1 ≠ x.2.1 := by
        intro he
        exact hnd'.1 (he ▸ List.mem_map_of_mem Prod.fst hmem)
      rw [posOf, if_neg hne]
      have := rowids_posOf (i + 1) rs x hnd'.2 h
      omega

/-- The index scan is a permutation of the tagged table. -/
theorem sortedRows_perm (rows : FreqRows) : List.Perm (sortedRows rows) (rowids 0 rows) :=
  List.perm_insertionSort scoreLE (rowids 0 rows)

/-- The index scan is sorted by `(score, rowid)`. -/
theorem sortedRows_sorted (rows : FreqRows) :
    List.Sorted scoreLE (sortedRows rows) :=
  List.sorted_insertionSort scoreLE (rowids 0 rows)

/-- In a sorted list, everything kept by `take` is related to everything
left in `drop`. -/
theorem sorted_rel_take_drop {α : Type} {r : α → α → Prop} :
    ∀ {l : List α} {n : Nat} {x y : α}, List.Sorted r l →
      x ∈ l.take n → y ∈ l.drop n → r x y := by
  intro l
  induction l with
  | nil =>
    intro n x y _ hx _
    simp at hx
  | cons a t ih =>
    intro n x y hs hx hy
    rcases n with _ | n
    · simp at hx
    · rw [List.sorted_cons] at hs
      rw [List.take_succ_cons] at hx
      rw [List.drop_succ_cons] at hy
      rcases List.mem_cons.mp hx with h | h
      · exact h ▸ hs.1 y (List.drop_subset n t hy)
      · exact ih hs.2 h hy

/-- The minimum-score row value on an empty table is `0`. -/
theorem minScore_nil : minScore [] = 0 := rfl

/-- `_get_min_score` bounds every stored score from below. -/
theorem minScore_le (rows : FreqRows) (r : FreqRow) (hr : r ∈ rows) :
    minScore rows ≤ r.2.2 := by
  have hr' : r ∈ (rowids 0 rows).map Prod.snd := by rw [rowids_map_snd]; exact hr
  obtain ⟨x, hx, hxr⟩ := List.mem_map.mp hr'
  have hxs : x ∈ sortedRows rows := (sortedRows_perm rows).mem_iff.mpr hx
  rcases hsr : sortedRows rows with _ | ⟨a, l⟩
  · rw [hsr] at hxs
    simp at hxs
  · have hmin : minScore rows = a.2.2.2 := by unfold minScore; rw [hsr]
    rw [hmin]
    rw [hsr] at hxs
    have hsort := sortedRows_sorted rows
    rw [hsr, List.sorted_cons] at hsort
    rcases List.mem_cons.mp hxs with h | h
    · exact le_of_eq (by rw [← hxr, ← h])
    · rcases hsort.1 x h with hlt | ⟨heq, _⟩
      · exact le_of_lt (hxr ▸ hlt)
      · exact le_of_eq (hxr ▸ heq)

/-- On a nonempty table `_get_min_score` returns one of the scores. -/
theorem minScore_mem (rows : FreqRows) (h : rows ≠ []) :
    ∃ r ∈ rows, minScore rows = r.2.2 := by
  rcases hsr : sortedRows rows with _ | ⟨a, l⟩
  · have := (sortedRows_perm rows).length_eq
    rw [hsr, rowids_length] at this
    exact absurd (List.length_eq_zero.mp this.symm) h
  · refine ⟨a.2, ?_, ?_⟩
    · have : a ∈ rowids 0 rows :=
        (sortedRows_perm rows).mem_iff.mp (hsr ▸ List.mem_cons_self a l)
      have := List.mem_map_of_mem Prod.snd this
      rwa [rowids_map_snd] at this
    · unfold minScore
      rw [hsr]

end FreqDB

namespace FreqDB

/-- A pointwise map that keeps page ids keeps the key list. -/
theorem keys_map_keep_fst (f : FreqRow → FreqRow) (hf : ∀ r, (f r).1 = r.1) :
    ∀ rows : FreqRows, keys (rows.map f) = keys rows := by
  intro rows
  induction rows with
  | nil => rfl
  | cons r rs ih =>
    show (f r).1 :: keys (rs.map f) = r.1 :: keys rs
    rw [hf r, ih]

/-- Cons equation for point lookup. -/
theorem get?_cons (r : FreqRow) (rs : FreqRows) (p : PageId) :
    get? (r :: rs) p = if r.1 = p then some r.2 else get? rs p := rfl

/-- Point lookup through the `score += 1/frequency` bulk update. -/
theorem get?_bump (rows : FreqRows) (ids : List PageId) (p : PageId) :
    get? (rows.map fun r =>
        if r.1 ∈ ids then (r.1, r.2.1, r.2.2 + 1 / r.2.1) else r) p =
      if p ∈ ids then (get? rows p).map (fun fs => (fs.1, fs.2 + 1 / fs.1))
      else get? rows p := by
  induction rows with
  | nil => by_cases h : p ∈ ids <;> simp [get?, h]
  | cons r rs ih =>
    rw [List.map_cons]
    by_cases hm : r.1 ∈ ids
    · rw [if_pos hm, get?_cons, get?_cons]
      dsimp only
      by_cases he : r.1 = p
      · subst he
        rw [if_pos rfl, if_pos rfl, if_pos hm]
        rfl
      · rw [if_neg he, if_neg he, ih]
    · rw [if_neg hm, get?_cons, get?_cons]
      by_cases he : r.1 = p
      · subst he
        rw [if_pos rfl, if_pos rfl, if_neg hm]
      · rw [if_neg he, if_neg he, ih]

end FreqDB

/-- Claim C6: `get_next_pages(n)` returns the (up to) `n` pages whose
rows are least in the `(score, rowid)` order — every selected row beats
every unselected row either by a strictly smaller score or by an equal
score and an earlier rowid — and afterwards exactly the selected rows
have `1/frequency` added to their score, every other row being kept
verbatim. -/
theorem freqdb_get_next_pages_selection (rows : FreqRows) (n : Nat)
    (hnd : (FreqDB.keys rows).Nodup) :
    (FreqDB.getNextPages rows n).1.length = min n rows.length ∧
    (∀ p ∈ (FreqDB.getNextPages rows n).1, p ∈ FreqDB.keys rows) ∧
    (∀ p ∈ (FreqDB.getNextPages rows n).1, ∀ q ∈ FreqDB.keys rows,
        q ∉ (FreqDB.getNextPages rows n).1 →
        FreqDB.scoreOf rows p < FreqDB.scoreOf rows q ∨
          (FreqDB.scoreOf rows p = FreqDB.scoreOf rows q ∧
           FreqDB.posOf rows p < FreqDB.posOf rows q)) ∧
    FreqDB.keys (FreqDB.getNextPages rows n).2 = FreqDB.keys rows ∧
    (∀ p ∈ (FreqDB.getNextPages rows n).1,
        FreqDB.get? (FreqDB.getNextPages rows n).2 p =
          (FreqDB.get? rows p).map fun fs => (fs.1, fs.2 + 1 / fs.1)) ∧
    (∀ p, p ∉ (FreqDB.getNextPages rows n).1 →
        FreqDB.get? (FreqDB.getNextPages rows n).2 p = FreqDB.get? rows p) := by
  have hids : (FreqDB.getNextPages rows n).1 =
      ((FreqDB.sortedRows rows).take n).map (fun e => e.2.1) := rfl
  have hupd : (FreqDB.getNextPages rows n).2 =
      rows.map (fun r =>
        if r.1 ∈ (FreqDB.getNextPages rows n).1
        then (r.1, r.2.1, r.2.2 + 1 / r.2.1) else r) := rfl
  have hlen : (FreqDB.sortedRows rows).length = rows.length :=
    (FreqDB.sortedRows_perm rows).length_eq.trans (FreqDB.rowids_length 0 rows)
  have hmemkeys : ∀ p ∈ (FreqDB.getNextPages rows n).1, p ∈ FreqDB.keys rows := by
    intro p hp
    obtain ⟨x, hxt, hxp⟩ := List.mem_map.mp (hids ▸ hp)
    have hx : x ∈ FreqDB.rowids 0 rows :=
      (FreqDB.sortedRows_perm rows).mem_iff.mp
        ((FreqDB.sortedRows rows).take_subset n hxt)
    have : x.2 ∈ rows := by
      have := List.mem_map_of_mem Prod.snd hx
      rwa [FreqDB.rowids_map_snd] at this
    have := List.mem_map_of_mem Prod.fst this
    rwa [hxp] at this
  refine ⟨?_, hmemkeys, ?_, ?_, ?_, ?_⟩
  · rw [hids, List.length_map, List.length_take, hlen]
  · intro p hp q hq hqn
    obtain ⟨x, hxt, hxp⟩ := List.mem_map.mp (hids ▸ hp)
    obtain ⟨rq, hrq, hrqq⟩ := List.mem_map.mp hq
    have hrq' : rq ∈ (FreqDB.rowids 0 rows).map Prod.snd := by
      rw [FreqDB.rowids_map_snd]; exact hrq
    obtain ⟨y, hy, hysnd⟩ := List.mem_map.mp hrq'
    have hyL : y ∈ FreqDB.sortedRows rows :=
      (FreqDB.sortedRows_perm rows).mem_iff.mpr hy
    have hynt : y ∉ (FreqDB.sortedRows rows).take n := by
      intro hmem
      have : y.2.1 ∈ ((FreqDB.sortedRows rows).take n).map (fun e => e.2.1) :=
        List.mem_map_of_mem _ hmem
      rw [hysnd, hrqq] at this
      exact hqn (hids ▸ this)
    have hyd : y ∈ (FreqDB.sortedRows rows).drop n := by
      have hsplit := List.take_append_drop n (FreqDB.sortedRows rows)
      rcases List.mem_append.mp (hsplit ▸ hyL) with h | h
      · exact absurd h hynt
      · exact h
    have hrel := FreqDB.sorted_rel_take_drop (FreqDB.sortedRows_sorted rows)
      hxt hyd
    have hxmem : x ∈ FreqDB.rowids 0 rows :=
      (FreqDB.sortedRows_perm rows).mem_iff.mp
        ((FreqDB.sortedRows rows).take_subset n hxt)
    have hgx := FreqDB.rowids_get? 0 rows x hnd hxmem
    have hgy := FreqDB.rowids_get? 0 rows y hnd hy
    have hpx := FreqDB.rowids_posOf 0 rows x hnd hxmem
    have hpy := FreqDB.rowids_posOf 0 rows y hnd hy
    have hsp : FreqDB.scoreOf rows p = x.2.2.2 := by
      rw [FreqDB.scoreOf, ← hxp, hgx]
      rfl
    have hsq : FreqDB.scoreOf rows q = y.2.2.2 := by
      rw [FreqDB.scoreOf, ← hrqq, ← hysnd, hgy]
      rfl
    have hppx : FreqDB.posOf rows p = x.1 := by
      have := hpx
      rw [hxp] at this
      omega
    have hppy : FreqDB.posOf rows q = y.1 := by
      have := hpy
      rw [hysnd, hrqq] at this
      omega
    unfold FreqDB.scoreLE at hrel
    rcases hrel with hlt | ⟨heq, hle⟩
    · left
      rw [hsp, hsq]
      exact hlt
    · right
      have hne : x.1 ≠ y.1 := by
        intro he
        have := FreqDB.rowids_fst_inj 0 rows x y hxmem hy he
        exact hynt (this ▸ hxt)
      refine ⟨by rw [hsp, hsq, heq], ?_⟩
      rw [hppx, hppy]
      omega
  · rw [hupd]
    exact FreqDB.keys_map_keep_fst _ (fun r => by split <;> rfl) rows
  · intro p hp
    rw [hupd, FreqDB.get?_bump, if_pos hp]
  · intro p hpn
    rw [hupd, FreqDB.get?_bump, if_neg hpn]

/-- Witness for C6: a three-row store with a score tie, `n = 2`. -/
theorem freqdb_get_next_pages_selection_witness :
    (FreqDB.keys [(5, 1, 3), (6, 2, 1), (7, 4, 1)]).Nodup ∧
    ((FreqDB.getNextPages [(5, 1, 3), (6, 2, 1), (7, 4, 1)] 2).1.length =
        min 2 [(5, 1, 3), (6, 2, 1), (7, 4, 1)].length ∧
     (∀ p ∈ (FreqDB.getNextPages [(5, 1, 3), (6, 2, 1), (7, 4, 1)] 2).1,
        p ∈ FreqDB.keys [(5, 1, 3), (6, 2, 1), (7, 4, 1)]) ∧
     (∀ p ∈ (FreqDB.getNextPages [(5, 1, 3), (6, 2, 1), (7, 4, 1)] 2).1,
        ∀ q ∈ FreqDB.keys [(5, 1, 3), (6, 2, 1), (7, 4, 1)],
        q ∉ (FreqDB.getNextPages [(5, 1, 3), (6, 2, 1), (7, 4, 1)] 2).1 →
        FreqDB.scoreOf [(5, 1, 3), (6, 2, 1), (7, 4, 1)] p <
            FreqDB.scoreOf [(5, 1, 3), (6, 2, 1), (7, 4, 1)] q ∨
          (FreqDB.scoreOf [(5, 1, 3), (6, 2, 1), (7, 4, 1)] p =
              FreqDB.scoreOf [(5, 1, 3), (6, 2, 1), (7, 4, 1)] q ∧
           FreqDB.posOf [(5, 1, 3), (6, 2, 1), (7, 4, 1)] p <
              FreqDB.posOf [(5, 1, 3), (6, 2, 1), (7, 4, 1)] q)) ∧
     FreqDB.keys (FreqDB.getNextPages [(5, 1, 3), (6, 2, 1), (7, 4, 1)] 2).2 =
        FreqDB.keys [(5, 1, 3), (6, 2, 1), (7, 4, 1)] ∧
     (∀ p ∈ (FreqDB.getNextPages [(5, 1, 3), (6, 2, 1), (7, 4, 1)] 2).1,
        FreqDB.get? (FreqDB.getNextPages [(5, 1, 3), (6, 2, 1), (7, 4, 1)] 2).2 p =
          (FreqDB.get? [(5, 1, 3), (6, 2, 1), (7, 4, 1)] p).map
            fun fs => (fs.1, fs.2 + 1 / fs.1)) ∧
     (∀ p, p ∉ (FreqDB.getNextPages [(5, 1, 3), (6, 2, 1), (7, 4, 1)] 2).1 →
        FreqDB.get? (FreqDB.getNextPages [(5, 1, 3), (6, 2, 1), (7, 4, 1)] 2).2 p =
          FreqDB.get? [(5, 1, 3), (6, 2, 1), (7, 4, 1)] p)) :=
  ⟨by decide,
   freqdb_get_next_pages_selection [(5, 1, 3), (6, 2, 1), (7, 4, 1)] 2 (by decide)⟩

/-- Claim C5: `FreqStore.add(p, f)` with `f = 0` leaves the store
unchanged; with `f > 0` and `p` absent it appends the row
`(p, f, score0 + 1/f)` when fresh and `(p, f, score0)` when not, where
`score0` is the least stored score (`0` on an empty store). -/
theorem freqdb_add_admission (rows : FreqRows) (p : PageId) (f : ℚ)
    (fresh : Bool) :
    FreqDB.add rows p 0 fresh = rows ∧
    (0 < f → p ∉ FreqDB.keys rows →
      FreqDB.add rows p f fresh =
        rows ++ [(p, f, FreqDB.minScore rows + if fresh then 1 / f else 0)]) ∧
    (rows = [] → FreqDB.minScore rows = 0) ∧
    (∀ r ∈ rows, FreqDB.minScore rows ≤ r.2.2) ∧
    (rows ≠ [] → ∃ r ∈ rows, FreqDB.minScore rows = r.2.2) := by
  refine ⟨?_, ?_, ?_, FreqDB.minScore_le rows, FreqDB.minScore_mem rows⟩
  · simp [FreqDB.add]
  · intro hf hp
    rw [FreqDB.add, if_pos hf]
    simp [hp]
  · intro h
    subst h
    rfl

/-- Witness for C5: a one-row store, a fresh insertion at `f = 2`. -/
theorem freqdb_add_admission_witness :
    (0 < (2 : ℚ) ∧ 3 ∉ FreqDB.keys [(7, 2, 5)]) ∧
    FreqDB.add [(7, 2, 5)] 3 2 true =
      [(7, 2, 5)] ++ [(3, 2, FreqDB.minScore [(7, 2, 5)] + if true then 1 / 2 else 0)] :=
  ⟨⟨by norm_num, by decide⟩,
   (freqdb_add_admission [(7, 2, 5)] 3 2 true).2.1 (by norm_num) (by decide)⟩

/-- Claim C10: `FreqStore.set(p, f)` with `f > 0` on an unknown page
inserts `p` as a fresh row: score `= min stored score (or 0) + 1/f`. -/
theorem freqdb_set_unknown_inserts_fresh (rows : FreqRows) (p : PageId)
    (f : ℚ) (hf : 0 < f) (hp : p ∉ FreqDB.keys rows) :
    FreqDB.set rows p f = rows ++ [(p, f, FreqDB.minScore rows + 1 / f)] := by
  rw [FreqDB.set, if_neg (ne_of_gt hf), if_neg hp, FreqDB.add, if_pos hf]
  simp [hp]

/-- The `update` loop run for `k + 1` rounds returns the batch selected
in the state reached after `k` rounds, together with the state after
`k + 1` rounds. -/
theorem updateLoop_eq_iterate (g : GraphDB) (rel : PageId → Option ℚ)
    (tw : Option ℚ) (nUpd : Nat) (k : Nat) :
    ∀ st : OpicState,
      OpicHits.updateLoop g rel tw nUpd (k + 1) st =
        (OpicHits.selectMixed ((OpicHits.iterOnce g rel tw nUpd)^[k] st) nUpd,
         (OpicHits.iterOnce g rel tw nUpd)^[k + 1] st) := by
  induction k with
  | zero =>
    intro st
    simp [OpicHits.updateLoop, OpicHits.iterOnce]
  | succ k ih =>
    intro st
    rw [show k + 1 + 1 = Nat.succ (Nat.succ k) from rfl, OpicHits.updateLoop]
    rw [show Nat.succ k = k + 1 from rfl, ih]
    rw [show OpicHits.updateVirtualPage tw
          (OpicHits.runMixed g rel tw st (OpicHits.selectMixed st nUpd)) =
        OpicHits.iterOnce g rel tw nUpd st from rfl]
    rw [← Function.iterate_succ_apply, ← Function.iterate_succ_apply]

/-- Claim C9: for `n_iter ≥ 2` the pair returned by `update` is exactly
the hub/authority projection of the batch selected in the final
iteration (the state after `n_iter − 1` rounds); pages updated in
earlier rounds but not selected then are absent. -/
theorem opic_update_returns_final_batch (g : GraphDB)
    (rel : PageId → Option ℚ) (tw : Option ℚ) (st : OpicState) (n : Nat)
    (hn : 2 ≤ n) :
    (OpicHits.update g rel tw n st).1.1 =
      ((OpicHits.selectMixed
          ((OpicHits.iterOnce g rel tw (20 * max 1 st.toUpdate.length))^[n - 1] st)
          (20 * max 1 st.toUpdate.length)).filter (fun e => e.2.2)).map
        (fun e => e.2.1) ∧
    (OpicHits.update g rel tw n st).1.2 =
      ((OpicHits.selectMixed
          ((OpicHits.iterOnce g rel tw (20 * max 1 st.toUpdate.length))^[n - 1] st)
          (20 * max 1 st.toUpdate.length)).filter (fun e => !e.2.2)).map
        (fun e => e.2.1) := by
  obtain ⟨k, rfl⟩ : ∃ k, n = k + 1 := ⟨n - 1, by omega⟩
  constructor <;>
    simp [OpicHits.update, updateLoop_eq_iterate]

/-- Witness for C9: a fresh single-page engine, `n_iter = 2`. -/
theorem opic_update_returns_final_batch_witness :
    2 ≤ 2 ∧
    ((OpicHits.update c9g (fun _ => none) none 2 c9st).1.1 =
      ((OpicHits.selectMixed
          ((OpicHits.iterOnce c9g (fun _ => none) none
              (20 * max 1 c9st.toUpdate.length))^[2 - 1] c9st)
          (20 * max 1 c9st.toUpdate.length)).filter (fun e => e.2.2)).map
        (fun e => e.2.1) ∧
     (OpicHits.update c9g (fun _ => none) none 2 c9st).1.2 =
      ((OpicHits.selectMixed
          ((OpicHits.iterOnce c9g (fun _ => none) none
              (20 * max 1 c9st.toUpdate.length))^[2 - 1] c9st)
          (20 * max 1 c9st.toUpdate.length)).filter (fun e => !e.2.2)).map
        (fun e => e.2.1)) :=
  ⟨by decide,
   opic_update_returns_final_batch c9g (fun _ => none) none c9st 2 (by decide)⟩

namespace Rows

/-- A pointwise map that keeps keys keeps the key list. -/
theorem keys_map_of_fst (f : PageId × HitsScore → PageId × HitsScore)
    (hf : ∀ r, (f r).1 = r.1) :
    ∀ rows : ScoreRows, keys (rows.map f) = keys rows := by
  intro rows
  induction rows with
  | nil => rfl
  | cons r rs ih =>
    show (f r).1 :: keys (rs.map f) = r.1 :: keys rs
    rw [hf r, ih]

/-- `setRow` keeps the key list. -/
theorem keys_setRow (rows : ScoreRows) (p : PageId) (s : HitsScore) :
    keys (setRow rows p s) = keys rows :=
  keys_map_of_fst _ (fun r => by split <;> rfl) rows

/-- `incA` keeps the key list. -/
theorem keys_incA (rows : ScoreRows) (ids : List PageId) (d : ℚ) :
    keys (incA rows ids d) = keys rows :=
  keys_map_of_fst _ (fun r => by split <;> rfl) rows

/-- `incH` keeps the key list. -/
theorem keys_incH (rows : ScoreRows) (ids : List PageId) (d : ℚ) :
    keys (incH rows ids d) = keys rows :=
  keys_map_of_fst _ (fun r => by split <;> rfl) rows

/-- A present key has a stored score. -/
theorem get?_isSome_of_mem (rows : ScoreRows) (p : PageId)
    (h : p ∈ keys rows) : ∃ s, get? rows p = some s := by
  induction rows with
  | nil => exact absurd h (List.not_mem_nil p)
  | cons r rs ih =>
    by_cases he : r.1 = p
    · exact ⟨r.2, by rw [get?, if_pos he]⟩
    · have h' : p ∈ r.1 :: keys rs := h
      rcases List.mem_cons.mp h' with h'' | h''
      · exact absurd h''.symm he
      · obtain ⟨s, hs⟩ := ih h''
        exact ⟨s, by rw [get?, if_neg he]; exact hs⟩

/-- Cons equation for `setRow`. -/
theorem setRow_cons (r : PageId × HitsScore) (rs : ScoreRows) (p : PageId)
    (s : HitsScore) :
    setRow (r :: rs) p s =
      (if r.1 = p then (r.1, s) else r) :: setRow rs p s := rfl

/-- Cons equation for `incA`. -/
theorem incA_cons (r : PageId × HitsScore) (rs : ScoreRows)
    (ids : List PageId) (d : ℚ) :
    incA (r :: rs) ids d =
      (if r.1 ∈ ids then (r.1, { r.2 with a_cash := r.2.a_cash + d }) else r) ::
        incA rs ids d := rfl

/-- Cons equation for `incH`. -/
theorem incH_cons (r : PageId × HitsScore) (rs : ScoreRows)
    (ids : List PageId) (d : ℚ) :
    incH (r :: rs) ids d =
      (if r.1 ∈ ids then (r.1, { r.2 with h_cash := r.2.h_cash + d }) else r) ::
        incH rs ids d := rfl

/-- Cons equation for `incAll`. -/
theorem incAll_cons (r : PageId × HitsScore) (rs : ScoreRows) (dh da : ℚ) :
    incAll (r :: rs) dh da =
      (r.1, { r.2 with h_cash := r.2.h_cash + dh, a_cash := r.2.a_cash + da }) ::
        incAll rs dh da := rfl

/-- Cons equation for `sumCash`. -/
theorem sumCash_cons (r : PageId × HitsScore) (rs : ScoreRows) :
    sumCash (r :: rs) = (r.2.h_cash + r.2.a_cash) + sumCash rs := rfl

/-- Writing a page not in the table is a no-op. -/
theorem setRow_not_mem (rows : ScoreRows) (p : PageId) (s : HitsScore)
    (h : p ∉ keys rows) : setRow rows p s = rows := by
  induction rows with
  | nil => rfl
  | cons r rs ih =>
    have h' : p ∉ r.1 :: keys rs := h
    have hne : r.1 ≠ p := fun he => h' (he ▸ List.mem_cons_self _ _)
    have h2 : p ∉ keys rs := fun hm => h' (List.mem_cons_of_mem _ hm)
    rw [setRow_cons, if_neg hne, ih h2]

/-- A bulk authority-cash increase to pages outside `ids` is invisible
to point lookups of other pages. -/
theorem get?_incA_not_mem (rows : ScoreRows) (ids : List PageId) (d : ℚ)
    (p : PageId) (h : p ∉ ids) :
    get? (incA rows ids d) p = get? rows p := by
  induction rows with
  | nil => rfl
  | cons r rs ih =>
    rw [incA_cons]
    by_cases hm : r.1 ∈ ids
    · have hne : r.1 ≠ p := fun he => h (he ▸ hm)
      rw [if_pos hm, get?, get?, if_neg hne, if_neg hne]
      exact ih
    · rw [if_neg hm, get?, get?]
      by_cases he : r.1 = p
      · rw [if_pos he, if_pos he]
      · rw [if_neg he, if_neg he]
        exact ih

/-- Same for hub cash. -/
theorem get?_incH_not_mem (rows : ScoreRows) (ids : List PageId) (d : ℚ)
    (p : PageId) (h : p ∉ ids) :
    get? (incH rows ids d) p = get? rows p := by
  induction rows with
  | nil => rfl
  | cons r rs ih =>
    rw [incH_cons]
    by_cases hm : r.1 ∈ ids
    · have hne : r.1 ≠ p := fun he => h (he ▸ hm)
      rw [if_pos hm, get?, get?, if_neg hne, if_neg hne]
      exact ih
    · rw [if_neg hm, get?, get?]
      by_cases he : r.1 = p
      · rw [if_pos he, if_pos he]
      · rw [if_neg he, if_neg he]
        exact ih

/-- `incA` adds `d` once per matching row. -/
theorem sumCash_incA (rows : ScoreRows) (ids : List PageId) (d : ℚ) :
    sumCash (incA rows ids d) =
      sumCash rows + ((rows.countP fun r => decide (r.1 ∈ ids)) : ℚ) * d := by
  induction rows with
  | nil => simp [sumCash, incA]
  | cons r rs ih =>
    rw [incA_cons, List.countP_cons]
    by_cases hm : r.1 ∈ ids
    · rw [if_pos hm, sumCash_cons, sumCash_cons, ih]
      simp only [hm, decide_True]
      push_cast
      try dsimp only
      ring
    · rw [if_neg hm, sumCash_cons, sumCash_cons, ih]
      simp only [hm, decide_False]
      push_cast
      ring

/-- `incH` adds `d` once per matching row. -/
theorem sumCash_incH (rows : ScoreRows) (ids : List PageId) (d : ℚ) :
    sumCash (incH rows ids d) =
      sumCash rows + ((rows.countP fun r => decide (r.1 ∈ ids)) : ℚ) * d := by
  induction rows with
  | nil => simp [sumCash, incH]
  | cons r rs ih =>
    rw [incH_cons, List.countP_cons]
    by_cases hm : r.1 ∈ ids
    · rw [if_pos hm, sumCash_cons, sumCash_cons, ih]
      simp only [hm, decide_True]
      push_cast
      try dsimp only
      ring
    · rw [if_neg hm, sumCash_cons, sumCash_cons, ih]
      simp only [hm, decide_False]
      push_cast
      ring

/-- `incAll` adds `dh + da` to every row. -/
theorem sumCash_incAll (rows : ScoreRows) (dh da : ℚ) :
    sumCash (incAll rows dh da) =
      sumCash rows + (rows.length : ℚ) * (dh + da) := by
  induction rows with
  | nil => simp [sumCash, incAll]
  | cons r rs ih =>
    rw [incAll_cons, sumCash_cons, sumCash_cons, ih, List.length_cons]
    push_cast
    try dsimp only
    ring

/-- With unique keys a write replaces exactly one row's cash. -/
theorem sumCash_setRow (rows : ScoreRows) (p : PageId) (s sc : HitsScore)
    (hnd : (keys rows).Nodup) (hget : get? rows p = some sc) :
    sumCash (setRow rows p s) =
      sumCash rows - (sc.h_cash + sc.a_cash) + (s.h_cash + s.a_cash) := by
  induction rows with
  | nil => exact absurd hget (by rw [get?]; exact Option.noConfusion)
  | cons r rs ih =>
    have hnd' : r.1 ∉ keys rs ∧ (keys rs).Nodup := List.nodup_cons.mp hnd
    by_cases he : r.1 = p
    · rw [get?, if_pos he] at hget
      injection hget with hsc
      have hnm : p ∉ keys rs := he ▸ hnd'.1
      rw [setRow_cons, if_pos he, sumCash_cons, sumCash_cons,
        setRow_not_mem rs p s hnm, ← hsc]
      ring
    · rw [get?, if_neg he] at hget
      rw [setRow_cons, if_neg he, sumCash_cons, sumCash_cons,
        ih hnd'.2 hget]
      ring

/-- Counting rows whose key lies in a duplicate-free list of present
keys counts that list. -/
theorem countP_mem_eq_length (ks ids : List PageId) (h1 : ks.Nodup)
    (h2 : ids.Nodup) (h3 : ∀ x ∈ ids, x ∈ ks) :
    (ks.countP fun k => decide (k ∈ ids)) = ids.length := by
  rw [List.countP_eq_length_filter]
  have hperm : List.Perm (ks.filter fun k => decide (k ∈ ids)) ids := by
    rw [List.perm_ext_iff_of_nodup (h1.filter _) h2]
    intro a
    simp only [List.mem_filter, decide_eq_true_eq]
    exact ⟨fun h => h.2, fun h => ⟨h3 a h, h⟩⟩
  exact hperm.length_eq

/-- Lifting the count from keys to rows. -/
theorem countP_rows_eq_keys (rows : ScoreRows) (ids : List PageId) :
    (rows.countP fun r => decide (r.1 ∈ ids)) =
      ((keys rows).countP fun k => decide (k ∈ ids)) := by
  induction rows with
  | nil => rfl
  | cons r rs ih =>
    show List.countP _ (r :: rs) = List.countP _ (r.1 :: keys rs)
    rw [List.countP_cons, List.countP_cons, ih]

end Rows

/-- Claim C1: with every listed successor and predecessor backed by a
score row (and the table well-formed: unique keys, duplicate-free
self-loop-free adjacency, page counter equal to the row count), each of
the three update steps preserves the total unspent cash
`T = vp.h_cash + vp.a_cash + Σ (h_cash + a_cash)`. -/
theorem opic_cash_conservation (g : GraphDB) (rel : PageId → Option ℚ)
    (st : OpicState) (p : PageId)
    (hkeys : (Rows.keys st.scores).Nodup)
    (hp : p ∈ Rows.keys st.scores)
    (hsucc : ∀ q ∈ g.succs p, q ∈ Rows.keys st.scores)
    (hsuccnd : (g.succs p).Nodup)
    (hsuccself : p ∉ g.succs p)
    (hpred : ∀ q ∈ g.preds p, q ∈ Rows.keys st.scores)
    (hprednd : (g.preds p).Nodup)
    (hpredself : p ∉ g.preds p)
    (hn : st.nPages = st.scores.length) :
    OpicHits.totalCash (OpicHits.updatePageH g none st p) =
      OpicHits.totalCash st ∧
    OpicHits.totalCash (OpicHits.updatePageA g rel none st p) =
      OpicHits.totalCash st ∧
    OpicHits.totalCash (OpicHits.updateVirtualPage none st) =
      OpicHits.totalCash st := by
  obtain ⟨sc, hsc⟩ := Rows.get?_isSome_of_mem st.scores p hp
  have hgps : OpicHits.getPageScore st p = (sc, st) := by
    rw [OpicHits.getPageScore, hsc]
  refine ⟨?_, ?_, ?_⟩
  · have hcount : (st.scores.countP fun r => decide (r.1 ∈ g.succs p)) =
        (g.succs p).length := by
      rw [Rows.countP_rows_eq_keys]
      exact Rows.countP_mem_eq_length _ _ hkeys hsuccnd hsucc
    unfold OpicHits.totalCash OpicHits.updatePageH
    rw [hgps]
    try dsimp only
    rw [Rows.sumCash_setRow _ p _ sc
        (by rw [Rows.keys_incA]; exact hkeys)
        (by rw [Rows.get?_incA_not_mem _ _ _ _ hsuccself]; exact hsc)]
    rw [Rows.sumCash_incA, hcount]
    simp only [OpicHits.updatedPageH]
    try dsimp only
    have hden : ((g.succs p).length : ℚ) + 1 ≠ 0 := by positivity
    field_simp
    ring
  · have hcount : (st.scores.countP fun r => decide (r.1 ∈ g.preds p)) =
        (g.preds p).length := by
      rw [Rows.countP_rows_eq_keys]
      exact Rows.countP_mem_eq_length _ _ hkeys hprednd hpred
    unfold OpicHits.totalCash OpicHits.updatePageA
    rw [hgps]
    try dsimp only
    rw [Rows.sumCash_setRow _ p _ sc
        (by rw [Rows.keys_incH]; exact hkeys)
        (by rw [Rows.get?_incH_not_mem _ _ _ _ hpredself]; exact hsc)]
    rw [Rows.sumCash_incH, hcount]
    simp only [OpicHits.updatedPageA]
    try dsimp only
    ring
  · unfold OpicHits.totalCash OpicHits.updateVirtualPage
    by_cases h0 : 0 < st.nPages
    · rw [if_pos h0]
      try dsimp only
      rw [Rows.sumCash_incAll, ← hn]
      simp only [OpicHits.updatedPageH, OpicHits.updatedPageA]
      try dsimp only
      have hden : ((st.nPages : ℚ)) ≠ 0 := Nat.cast_ne_zero.mpr h0.ne'
      field_simp
      ring
    · rw [if_neg h0]

/-- Witness for C1 on the two-page state `c1st` with graph `c1g`. -/
theorem opic_cash_conservation_witness :
    ((Rows.keys c1st.scores).Nodup ∧ 0 ∈ Rows.keys c1st.scores ∧
     (∀ q ∈ c1g.succs 0, q ∈ Rows.keys c1st.scores) ∧ (c1g.succs 0).Nodup ∧
     0 ∉ c1g.succs 0 ∧
     (∀ q ∈ c1g.preds 0, q ∈ Rows.keys c1st.scores) ∧ (c1g.preds 0).Nodup ∧
     0 ∉ c1g.preds 0 ∧ c1st.nPages = c1st.scores.length) ∧
    (OpicHits.totalCash (OpicHits.updatePageH c1g none c1st 0) =
       OpicHits.totalCash c1st ∧
     OpicHits.totalCash (OpicHits.updatePageA c1g (fun _ => none) none c1st 0) =
       OpicHits.totalCash c1st ∧
     OpicHits.totalCash (OpicHits.updateVirtualPage none c1st) =
       OpicHits.totalCash c1st) :=
  ⟨by decide,
   opic_cash_conservation c1g (fun _ => none) c1st 0 (by decide) (by decide)
     (by decide) (by decide) (by decide) (by decide) (by decide) (by decide)
     (by decide)⟩

/-- Witness for C10 on a two-row store. -/
theorem freqdb_set_unknown_inserts_fresh_witness :
    (0 < (4 : ℚ) ∧ 9 ∉ FreqDB.keys [(1, 2, 3), (2, 1, 7)]) ∧
    FreqDB.set [(1, 2, 3), (2, 1, 7)] 9 4 =
      [(1, 2, 3), (2, 1, 7)] ++ [(9, 4, FreqDB.minScore [(1, 2, 3), (2, 1, 7)] + 1 / 4)] :=
  ⟨⟨by norm_num, by decide⟩,
   freqdb_set_unknown_inserts_fresh [(1, 2, 3), (2, 1, 7)] 9 4 (by norm_num) (by decide)⟩

end Frontera
